import Mathlib

/-!
# Verification of the `orders` crate's dense collections and order conversions

Shallow embedding of the repository's Rust source.  Machine integers
(`usize`) are modelled as `Nat`; release-mode Rust semantics are used for
arithmetic, so subtraction/multiplication that the source can under/overflow
is modelled with explicit wrapping modulo `2^64` (`wsub`, `wmul`), while
out-of-bounds slice indexing — which panics in every Rust profile — is
modelled as an explicit `crashed` outcome.  Index arithmetic that is bounded
by an existing `Vec`'s length (hence `< 2^64` in any real execution) is kept
as plain `Nat` arithmetic.  `debug_assert!` is disabled in release builds and
is therefore not modelled.
-/

namespace OrdersRepo

/-- `2^64`, the modulus of `usize` arithmetic in release mode. -/
def U : Nat := 2 ^ 64

/-- Wrapping (release-mode) `usize` subtraction `a - b`, for `a, b < 2^64`. -/
def wsub (a b : Nat) : Nat := (a + U - b % U) % U

/-- Wrapping (release-mode) `usize` multiplication. -/
def wmul (a b : Nat) : Nat := a * b % U

/-- Allocation-model capacity cap: `Vec::try_reserve` is guaranteed to fail
when the requested capacity exceeds `isize::MAX` bytes; we model a reservation
of `n` machine words as succeeding iff `n ≤ 2^61` (allocations of sane size
are assumed to succeed, which is the only deterministic refinement of the
fallible-allocation contract). -/
def CAP : Nat := 2 ^ 61

/-- Model of `Vec::try_reserve(n)`: `true` = success. -/
def tryReserve (n : Nat) : Bool := decide (n ≤ CAP)

/-- Outcome of an in-place fallible operation on a collection of type `σ`:
`ok` carries the mutated collection, `err` carries the (unchanged or partially
mutated) collection at the moment of the `return Err(..)`, `crashed` models a
Rust panic (`todo!`, `unreachable!`, out-of-bounds indexing). -/
inductive RemoveOut (σ : Type) where
  | ok (s : σ)
  | err (s : σ) (msg : String)
  | crashed
deriving Repr, DecidableEq

/-! ## `TotalDense` (src/collections/strict/complete.rs) -/

/-- `TotalDense`: packed fixed-width collection of complete total orders. -/
structure TotalDense where
  orders : List Nat
  elements : Nat
deriving Repr, DecidableEq

/-- `TotalDense::new`. -/
def TotalDense.new (elements : Nat) : TotalDense := ⟨[], elements⟩

/-- `TotalDense::len`. -/
def TotalDense.len (td : TotalDense) : Nat :=
  if td.elements = 0 then 0 else td.orders.length / td.elements

/-- The index slice of order `i` as produced by `TotalDense::try_get`
(`orders[i*elements .. (i+1)*elements]`). -/
def TotalDense.getOrder (td : TotalDense) (i : Nat) : List Nat :=
  (td.orders.drop (i * td.elements)).take td.elements

/-- Stable insertion of an indexed entry into a list sorted by value;
together with `sortPairs` this models the stable `slice::sort_by` on the
enumerated entries used by `get_order` (the rank assignment below is
insensitive to which stable value-sort is used). -/
def insertSorted (x : Nat × Nat) : List (Nat × Nat) → List (Nat × Nat)
  | [] => [x]
  | y :: ys => if x.2 < y.2 then x :: y :: ys else y :: insertSorted x ys

/-- Stable sort of enumerated entries by value (see `insertSorted`). -/
def sortPairs : List (Nat × Nat) → List (Nat × Nat)
  | [] => []
  | x :: xs => insertSorted x (sortPairs xs)

/-- `get_order(v, reverse)` from src/lib.rs: the rank of each entry of `v`
in sorted order, equal entries sharing a rank.  Only the `reverse = false`
instantiation at element type `usize` is used by `TotalDense::remove_element`.
The head of the sorted enumeration keeps rank 0; each strictly larger value
increments the rank. -/
def getOrderRanks (v : List Nat) : List Nat :=
  if v = [] then []
  else if v.length = 1 then [0]
  else
    let tmp := v.enum
    let sorted := sortPairs tmp
    match sorted with
    | [] => List.replicate v.length 0
    | b :: bs =>
      (bs.foldl
        (fun (st : List Nat × Nat × Nat) x =>
          let (out, current, i) := st
          let i' := if x.2 ≠ current then i + 1 else i
          let cur' := if x.2 ≠ current then x.2 else current
          (out.set x.1 i', cur', i'))
        (List.replicate v.length 0, b.2, 0)).1

/-- Write list `s` into `l` starting at position `d`
(`slice::clone_from_slice` of a sub-slice, as used after `get_order`). -/
def writeSlice (l : List Nat) (d : Nat) (s : List Nat) : List Nat :=
  (List.range l.length).map
    (fun k => if d ≤ k ∧ k < d + s.length then s.getD (k - d) 0 else l.getD k 0)

/-- `TotalDense::remove_element` (src/collections/strict/complete.rs:72-101),
translated instruction by instruction.  `targets = &[target]`; the inner loop
reads `targets[t_i]` at every iteration, which is an out-of-bounds access
(panic) as soon as `t_i = 1` and another iteration remains; `new_elements`
is computed with release-mode wrapping subtraction. -/
def TotalDense.removeElement (td : TotalDense) (target : Nat) : RemoveOut TotalDense :=
  let targets : List Nat := [target]
  let newElements := wsub td.elements targets.length
  let len := td.len
  -- inner loop over j for one order i; state: t_i, offset, orders; none = panic
  let inner : Nat → List Nat → Option (List Nat) := fun i orders0 =>
    (List.range td.elements).foldl
      (fun (st : Option (Nat × Nat × List Nat)) j =>
        match st with
        | none => none
        | some (ti, offset, orders) =>
          match targets.get? ti with
          | none => none  -- `targets[t_i]` out of bounds: panic
          | some t =>
            if t = j then some (ti + 1, offset + 1, orders)
            else
              some (ti, offset,
                orders.set (i * newElements + (j - offset))
                  (orders.getD (i * td.elements + j) 0)))
      (some (0, 0, orders0))
    |>.map (fun st => st.2.2)
  let outer : List Nat → Nat → Option (List Nat) := fun orders0 n =>
    (List.range n).foldl
      (fun (st : Option (List Nat)) i =>
        match st with
        | none => none
        | some orders =>
          match inner i orders with
          | none => none
          | some orders' =>
            let newOrder := (orders'.drop (i * newElements)).take newElements
            some (writeSlice orders' (i * newElements) (getOrderRanks newOrder)))
      (some orders0)
  match outer td.orders len with
  | none => .crashed
  | some orders' =>
    .ok ⟨(orders'.take (len * newElements)), newElements⟩

/-- The collection-validity predicate for `TotalDense`, translated from the
`valid` function in the test module of src/collections/strict/complete.rs:
`elements == 0` forces emptiness; otherwise the flat array splits into
complete rows and every row is a permutation of `0..elements`. -/
def TotalDense.validB (td : TotalDense) : Bool :=
  if td.elements = 0 then td.orders.isEmpty
  else
    td.orders.length % td.elements == 0 &&
    (List.range td.len).all (fun i =>
      decide (td.getOrder i).Nodup &&
      (td.getOrder i).all (fun x => x < td.elements) &&
      (List.range td.elements).all (fun x => x ∈ td.getOrder i))

/-! ## `TiedDense` (src/collections/tied/complete.rs) -/

/-- `TiedDense`: packed fixed-width collection of complete tied orders.
`orders` has length `len * elements`; `ties` has length
`len * (elements - 1)`, flag `i` saying rank `i` is tied with rank `i+1`. -/
structure TiedDense where
  orders : List Nat
  ties : List Bool
  elements : Nat
deriving Repr, DecidableEq

/-- `TiedDense::new`. -/
def TiedDense.new (elements : Nat) : TiedDense := ⟨[], [], elements⟩

/-- `TiedDense::len`. -/
def TiedDense.len (td : TiedDense) : Nat :=
  if td.elements = 0 then 0 else td.orders.length / td.elements

/-- Index slice of order `i` (`TiedDense::try_get`). -/
def TiedDense.getOrder (td : TiedDense) (i : Nat) : List Nat :=
  (td.orders.drop (i * td.elements)).take td.elements

/-- Tie-flag slice of order `i` (`TiedDense::try_get`). -/
def TiedDense.getTies (td : TiedDense) (i : Nat) : List Bool :=
  (td.ties.drop (i * (td.elements - 1))).take (td.elements - 1)

/-- `AddError` from src/collections/mod.rs. -/
inductive AddError where
  | elements
  | alloc
deriving Repr, DecidableEq

/-- `TotalDense`'s push slot, named `add` in the source
(src/collections/strict/complete.rs:61-70).  The pushed `TotalRef` is its
index slice; `TotalRef` itself lives in orders/strict/complete, which is not
among the provided sources, so its `elements()` is modelled from the spec: a
complete total order is "a permutation of all elements" (§3), hence its
element count is the length of its index sequence.  The guard is literally
`v.elements() != self.elements || self.elements == 0`, and the single
`try_reserve` request is `self.elements`. -/
def TotalDense.add (td : TotalDense) (vOrder : List Nat) : TotalDense × Option AddError :=
  if vOrder.length ≠ td.elements ∨ td.elements = 0 then (td, some .elements)
  else if ¬ tryReserve td.elements then (td, some .alloc)
  else ({ td with orders := td.orders ++ vOrder }, none)

/-- `TiedDense::push` (src/collections/tied/complete.rs:71-84).  The pushed
`TiedRef` is passed as its two backing slices.  The cardinality check is
literally `order.len() != self.elements && self.elements != 0`; the two
`try_reserve` requests are `order.len() * self.elements` and
`tie.len() * (self.elements - 1)` with release-mode wrapping.  Returns the
post-state together with the error, mirroring in-place mutation. -/
def TiedDense.push (td : TiedDense) (order : List Nat) (tie : List Bool) :
    TiedDense × Option AddError :=
  if order.length ≠ td.elements ∧ td.elements ≠ 0 then (td, some .elements)
  else if ¬ tryReserve (wmul order.length td.elements) then (td, some .alloc)
  else if ¬ tryReserve (wmul tie.length (wsub td.elements 1)) then (td, some .alloc)
  else ({ td with orders := td.orders ++ order, ties := td.ties ++ tie }, none)

/-- `slice::copy_within(s..e, d)` on a boolean vector, with `memmove`
semantics (reads take place from the original array).  All uses by
`TiedDense::remove_element` are in bounds for the inputs we evaluate. -/
def copyWithinB (l : List Bool) (s e d : Nat) : List Bool :=
  (List.range l.length).map
    (fun k => if d ≤ k ∧ k < d + (e - s) then l.getD (s + (k - d)) false else l.getD k false)

/-- `TiedDense::remove_element` (src/collections/tied/complete.rs:96-157),
translated instruction by instruction.  The entry comparison is the source's
`target.cmp(&el)` (`Less ⇒ el`, `Greater ⇒ el - 1` with release-mode
wrapping); the tie-flag branchings and `copy_within` calls keep the source's
exact index expressions; `unreachable!()` is a crash. -/
def TiedDense.removeElement (td : TiedDense) (target : Nat) : RemoveOut TiedDense :=
  if td.elements ≤ target then .err td "Element not in collection"
  else if td.elements = 1 then .ok ⟨[], [], 0⟩
  else if td.len = 0 then .ok { td with elements := td.elements - 1 }
  else
    let len := td.len
    let eo := td.elements
    let en := td.elements - 1
    let step : (List Nat × List Bool) → Nat → Option (List Nat × List Bool) :=
      fun (orders0, ties0) i =>
        -- the scan over one order's entries
        let scanned :=
          (List.range eo).foldl
            (fun (st : Option Nat × List Nat) j =>
              let (skipped, orders) := st
              let el := orders.getD (i * eo + j) 0
              if target < el then
                match skipped with
                | none => (skipped, orders.set (i * en + j) el)
                | some _ => (skipped, orders.set (i * en + j - 1) el)
              else if target = el then (some j, orders)
              else
                match skipped with
                | none => (skipped, orders.set (i * en + j) (wsub el 1))
                | some _ => (skipped, orders.set (i * en + j - 1) (wsub el 1)))
            (none, orders0)
        match scanned with
        | (none, _) => none  -- unreachable!()
        | (some removed, orders') =>
          let startOld := i * (eo - 1)
          let endOld := (i + 1) * (eo - 1)
          let startNew := i * (en - 1)
          let endNew := (i + 1) * (en - 1)
          let ties' :=
            if removed = 0 then
              copyWithinB ties0 (startOld + 1) endOld startNew
            else if removed = eo - 1 then
              copyWithinB ties0 startOld (endOld - 1) startNew
            else
              let pre := (ties0.drop startOld |>.take (endOld - startOld)).getD (removed - 1) false
              let next := (ties0.drop startOld |>.take (endOld - startOld)).getD removed false
              let t1 := copyWithinB ties0 startOld (startOld + removed - 1) startNew
              let t2 := copyWithinB t1 (startOld + removed) endOld startNew
              t2.set (startNew + (removed - 1)) (pre && next)
          -- endNew only delimits the slice written through `set` above
          some (orders', ties')
    let looped :=
      (List.range len).foldl
        (fun (st : Option (List Nat × List Bool)) i =>
          match st with
          | none => none
          | some s => step s i)
        (some (td.orders, td.ties))
    match looped with
    | none => .crashed
    | some (orders', ties') =>
      .ok ⟨orders'.take (len * en), ties'.take (len * (en - 1)), en⟩

/-- Collection validity for `TiedDense`, translated from the `valid` function
in the test module of src/collections/tied/complete.rs: backing lengths are
`len*elements` and `len*(elements-1)` (saturating), and every row is a
permutation of `0..elements` with a full-length tie row. -/
def TiedDense.validB (td : TiedDense) : Bool :=
  td.orders.length == td.len * td.elements &&
  td.ties.length == td.len * (td.elements - 1) &&
  (List.range td.len).all (fun i =>
    decide (td.getOrder i).Nodup &&
    (td.getOrder i).all (fun x => x < td.elements))

/-! ## `ChainIDense` (src/collections/chain/incomplete.rs) -/

/-- `ChainIDense`: packed variable-width collection of incomplete chains.
`orderEnd[i]` is the exclusive end offset of order `i` inside `orders`. -/
structure ChainIDense where
  orders : List Nat
  orderEnd : List Nat
  elements : Nat
deriving Repr, DecidableEq

/-- `ChainIDense::new`. -/
def ChainIDense.new (elements : Nat) : ChainIDense := ⟨[], [], elements⟩

/-- `ChainIDense::len`. -/
def ChainIDense.len (cd : ChainIDense) : Nat := cd.orderEnd.length

/-- Index slice of order `i` (`ChainIDense::try_get`):
`orders[order_end[i-1] (or 0) .. order_end[i]]`. -/
def ChainIDense.getOrder (cd : ChainIDense) (i : Nat) : List Nat :=
  let start := if i = 0 then 0 else cd.orderEnd.getD (i - 1) 0
  let stop := cd.orderEnd.getD i 0
  (cd.orders.drop start).take (stop - start)

/-- `ChainIDense::push` (src/collections/chain/incomplete.rs:72-81).  The
pushed `ChainIRef` is its declared universe size and its index slice.  Plain
`reserve` (infallible, aborts on failure) is used by the source, so there is
no `Alloc` error path. -/
def ChainIDense.push (cd : ChainIDense) (vElements : Nat) (vOrder : List Nat) :
    ChainIDense × Option AddError :=
  if vElements ≠ cd.elements then (cd, some .elements)
  else
    let start := cd.orderEnd.getLastD 0
    ({ cd with orders := cd.orders ++ vOrder,
               orderEnd := cd.orderEnd ++ [start + vOrder.length] }, none)

/-- `ChainIDense::remove_element` is `todo!()`: it panics unconditionally. -/
def ChainIDense.removeElement (_cd : ChainIDense) (_target : Nat) : RemoveOut ChainIDense :=
  .crashed

/-! ## Order value types and validity rules -/

/-- `unique_and_bounded` from src/lib.rs: every entry is `< elements` and no
entry occurs twice (the source's quadratic scan decides exactly this). -/
def uniqueAndBounded (elements : Nat) (order : List Nat) : Bool :=
  order.all (fun x => x < elements) && decide order.Nodup

/-- Validity of a complete tied order's backing data, from
`Tied::try_new`/`TiedRef::try_new`: correct tie-array length and
`unique_and_bounded(order.len(), order)`. -/
def tiedRefValid (order : List Nat) (tied : List Bool) : Bool :=
  (order.isEmpty && tied.isEmpty || tied.length + 1 == order.length) &&
  uniqueAndBounded order.length order

/-! ## Group iterator for tied orders

The crate's `GroupIterator` lives in `orders/tied/incomplete`, which is not
among the provided sources; only its callers are. -/

/-- Modelled from the spec: the group iterator of a tied order "walks the
order left to right and yields maximal runs of mutually tied elements as
slices, using the adjacent tie-flag sequence to decide run boundaries — a
run closes whenever a tie flag is false" (§4.2).  `cur` is the run being
accumulated; flag `i` of `tied` connects ranks `i` and `i+1`. -/
def iterGroupsAux : List Nat → List Bool → List Nat → List (List Nat)
  | [], _, cur => [cur]
  | x :: xs, t :: ts, cur =>
    if t then iterGroupsAux xs ts (cur ++ [x])
    else cur :: iterGroupsAux xs ts [x]
  | x :: xs, [], cur => cur :: iterGroupsAux xs [] [x]

/-- Modelled from the spec: `iter_groups` of a tied order (see
`iterGroupsAux`); an empty order yields no groups. -/
def iterGroups : List Nat → List Bool → List (List Nat)
  | [], _ => []
  | x :: xs, ts => iterGroupsAux xs ts [x]

/-! ## `CardinalDense` and the tied → cardinal conversion -/

/-- `CardinalDense`, with the fields used by the `TryFrom<TiedDense>`
constructor in src/collections/tied/complete.rs (the collection's own module
is not among the provided sources, but the construction fixes its shape). -/
structure CardinalDense where
  orders : List Nat
  elements : Nat
  min : Nat
  max : Nat
deriving Repr, DecidableEq

/-- `TryFrom<TiedDense> for CardinalDense`
(src/collections/tied/complete.rs:181-206): one score per element and order;
tie-group `i` (of `iter_groups`) gets score `max - i` where
`max = elements - 1`; the scratch row `new_order` persists across orders.
Fails only if the up-front reservation fails. -/
def cardinalOfTied (td : TiedDense) : Except String CardinalDense :=
  if ¬ tryReserve (wmul td.elements td.len) then .error "Could not allocate"
  else
    let max := wsub td.elements 1
    let final :=
      (List.range td.len).foldl
        (fun (st : List Nat × List Nat) i =>
          let (newOrder, out) := st
          let groups := iterGroups (td.getOrder i) (td.getTies i)
          let newOrder' :=
            groups.enum.foldl
              (fun no gi => gi.2.foldl (fun no c => no.set c (wsub max gi.1)) no)
              newOrder
          (newOrder', out ++ newOrder'))
        (List.replicate td.elements 0, [])
    .ok ⟨final.2, td.elements, 0, max⟩

/-- `From<TotalDense> for TiedDense`
(src/collections/tied/complete.rs:208-217): reuse the index array, add
`(elements - 1) * len` false flags (release-mode wrapping when
`elements = 0`). -/
def tiedOfTotal (v : TotalDense) : TiedDense :=
  ⟨v.orders, List.replicate (wmul (wsub v.elements 1) v.len) false, v.elements⟩

/-! ## Randomness model

The crate takes its randomness from the `rand` crate, an external
collaborator.  Spec §6 fixes the three sampler contracts (uniform index in
`0..n`, sequence shuffler producing a permutation, coin flip); we realise
them over an explicit deterministic generator (a stream of naturals), which
keeps every generation operation executable and models "any possible draw"
by quantifying over the stream. -/

structure Rng where
  seed : Nat → Nat
  pos : Nat

/-- Advance the generator one step. -/
def Rng.next (g : Rng) : Nat × Rng := (g.seed g.pos, ⟨g.seed, g.pos + 1⟩)

/-- Modelled from the spec: the uniform-index sampler contract — "produces an
index in `0..n` with equal probability for any `n > 0`" (§6).  Also models
`Uniform::new(0, n).sample` and `Rng::random_range(0..n)`. -/
def randRange (g : Rng) (n : Nat) : Nat × Rng :=
  let (x, g') := g.next
  (x % n, g')

/-- Modelled from the spec: the fair coin-flip sampler (`Bernoulli::new(0.5)`
and `StandardUniform` over `bool`). -/
def coin (g : Rng) : Bool × Rng :=
  let (x, g') := g.next
  (x % 2 == 0, g')

/-- `n` successive coin flips. -/
def coins : Rng → Nat → List Bool × Rng
  | g, 0 => ([], g)
  | g, n + 1 =>
    let (b, g') := coin g
    let (bs, g'') := coins g' n
    (b :: bs, g'')

/-- Modelled from the spec: the sequence-shuffler contract — "produces a
uniformly random permutation of a given sequence" (§6).  Realised as a
selection shuffle: repeatedly draw an index below the remaining length and
emit that element.  `fuel` is the initial length (structural recursion). -/
def shuffleGo {α : Type} : Nat → List α → Rng → List α × Rng
  | 0, _, g => ([], g)
  | _ + 1, [], g => ([], g)
  | fuel + 1, a :: l, g =>
    let j := (g.seed g.pos) % (a :: l).length
    let g₁ : Rng := ⟨g.seed, g.pos + 1⟩
    let x := (a :: l).get ⟨j, Nat.mod_lt _ (Nat.succ_pos _)⟩
    let (res, g₂) := shuffleGo fuel ((a :: l).eraseIdx j) g₁
    (x :: res, g₂)

/-- `SliceRandom::shuffle`, by the spec's shuffler contract. -/
def shuffle {α : Type} (l : List α) (g : Rng) : List α × Rng :=
  shuffleGo l.length l g

/-- Modelled from the spec: `IteratorRandom::choose_multiple(rng, amount)` —
`amount` distinct elements of the sequence, uniformly (a prefix of a uniform
permutation realises the contract used here). -/
def chooseMultiple (g : Rng) (l : List Nat) (amount : Nat) : List Nat × Rng :=
  let (l', g') := shuffle l g
  (l'.take amount, g')

/-! ## `generate_uniform` for the three dense kinds -/

/-- Loop body of `TotalDense::generate_uniform`
(src/collections/strict/complete.rs:103-113): the scratch permutation `v` is
re-shuffled (not reset) every iteration and appended to the flat array. -/
def totalGenGo : Nat → List Nat → Rng → List Nat → List Nat
  | 0, _, _, acc => acc
  | k + 1, v, g, acc =>
    let (v', g') := shuffle v g
    totalGenGo k v' g' (acc ++ v')

/-- `TotalDense::generate_uniform`; no-op when `elements == 0`. -/
def TotalDense.generateUniform (td : TotalDense) (g : Rng) (count : Nat) : TotalDense :=
  if td.elements = 0 then td
  else { td with orders := totalGenGo count (List.range td.elements) g td.orders }

/-- Loop body of `TiedDense::generate_uniform`
(src/collections/tied/complete.rs:159-178): per order, a shuffle of the
persistent scratch permutation plus `elements - 1` coin flips. -/
def tiedGenGo (E : Nat) : Nat → List Nat → Rng → List Nat × List Bool → List Nat × List Bool
  | 0, _, _, acc => acc
  | k + 1, v, g, (os, ts) =>
    let (v', g₁) := shuffle v g
    let (bs, g₂) := coins g₁ (E - 1)
    tiedGenGo E k v' g₂ (os ++ v', ts ++ bs)

/-- `TiedDense::generate_uniform`; no-op when `elements == 0`. -/
def TiedDense.generateUniform (td : TiedDense) (g : Rng) (count : Nat) : TiedDense :=
  if td.elements = 0 then td
  else
    let (os, ts) := tiedGenGo td.elements count (List.range td.elements) g (td.orders, td.ties)
    { td with orders := os, ties := ts }

/-- Loop body of `ChainIDense::generate_uniform`
(src/collections/chain/incomplete.rs:87-103): per order, draw
`k = sample(0..elements) + 1`, re-shuffle the persistent scratch permutation,
append its first `k` entries and a new cumulative end offset. -/
def chainIGenGo (E : Nat) : Nat → List Nat → Rng → List Nat × List Nat → List Nat × List Nat
  | 0, _, _, acc => acc
  | k + 1, v, g, (os, oe) =>
    let (s, g₁) := randRange g E
    let n := s + 1
    let (v', g₂) := shuffle v g₁
    let start := oe.getLastD 0
    chainIGenGo E k v' g₂ (os ++ v'.take n, oe ++ [start + n])

/-- `ChainIDense::generate_uniform`; no-op when `elements == 0`. -/
def ChainIDense.generateUniform (cd : ChainIDense) (g : Rng) (count : Nat) : ChainIDense :=
  if cd.elements = 0 then cd
  else
    let (os, oe) := chainIGenGo cd.elements count (List.range cd.elements) g (cd.orders, cd.orderEnd)
    { cd with orders := os, orderEnd := oe }

/-! ## Single-order types: `ChainI`, `Specific`, and `to_partial` -/

/-- `ChainI` (src/orders/chain/incomplete/owned.rs): a duplicate-free
sequence of distinct elements below `elements`. -/
structure ChainI where
  elements : Nat
  order : List Nat
deriving Repr, DecidableEq

/-- `ChainI::random` (src/orders/chain/incomplete/owned.rs:50-60): draws
`len` from `0..elements` (exclusive), then `len` distinct elements, then
shuffles them. -/
def ChainI.random (g : Rng) (elements : Nat) : ChainI :=
  if elements = 0 then ⟨elements, []⟩
  else
    let (len, g₁) := randRange g elements
    let (order, g₂) := chooseMultiple g₁ (List.range elements) len
    let (order', _) := shuffle order g₂
    ⟨elements, order'⟩

/-- `Specific` (src/orders/specific.rs): a single distinguished winner. -/
structure Specific where
  value : Nat
  elements : Nat
deriving Repr, DecidableEq

/-! ## The partial-order engine

The `partial_order` module is not among the provided sources; only its
callers (`to_partial` of each order variant) are. -/

/-- Modelled from the spec: `PartialOrderManual` (§4.1) — an incrementally
built pairwise relation; `set(lesser, greater)` records that `lesser` is
strictly below `greater`, and only this direction is ever recorded. -/
structure PartialOrderManual where
  elements : Nat
  pairs : List (Nat × Nat)
deriving Repr, DecidableEq

/-- Modelled from the spec: `PartialOrderManual::new(elements)` — the empty
relation (all pairs incomparable). -/
def PartialOrderManual.new (elements : Nat) : PartialOrderManual := ⟨elements, []⟩

/-- Modelled from the spec: `PartialOrderManual::set(lesser, greater)`. -/
def PartialOrderManual.set (m : PartialOrderManual) (lesser greater : Nat) : PartialOrderManual :=
  { m with pairs := m.pairs ++ [(lesser, greater)] }

/-- Modelled from the spec: `PartialOrder` — the finished relation, whose
queries are direct lookups. -/
structure PartialOrder where
  elements : Nat
  pairs : List (Nat × Nat)
deriving Repr, DecidableEq

/-- Modelled from the spec: `finish_unchecked()` — skips the transitivity
validation and trusts the recorded pairs as the full strict relation. -/
def PartialOrderManual.finishUnchecked (m : PartialOrderManual) : PartialOrder :=
  ⟨m.elements, m.pairs⟩

/-- Modelled from the spec: strict-less-than query — a direct lookup of the
recorded `(lesser, greater)` pairs. -/
def PartialOrder.ltB (p : PartialOrder) (a b : Nat) : Bool :=
  p.pairs.contains (a, b)

/-- Modelled from the spec: less-than-or-equal query (equality holds only
reflexively, since constructors record only the strict direction). -/
def PartialOrder.leB (p : PartialOrder) (a b : Nat) : Bool :=
  a == b || p.ltB a b

/-- Modelled from the spec: incomparability query. -/
def PartialOrder.incomparableB (p : PartialOrder) (a b : Nat) : Bool :=
  !(p.leB a b) && !(p.leB b a)

/-- The precondition of `finish_unchecked`, as the spec states it: the
supplied relation set is antisymmetric (in particular irreflexive) and
transitively closed. -/
def manualConsistent (m : PartialOrderManual) : Prop :=
  (∀ p ∈ m.pairs, p.1 ≠ p.2 ∧ (p.2, p.1) ∉ m.pairs) ∧
  (∀ a b c, (a, b) ∈ m.pairs → (b, c) ∈ m.pairs → (a, c) ∈ m.pairs)

/-- The relation-builder run of `Tied::to_partial`
(src/orders/tied/complete/owned.rs:117-132): for each tie group in rank
order, every member is set below every previously seen element. -/
def tiedToPartialManual (order : List Nat) (tied : List Bool) : PartialOrderManual :=
  ((iterGroups order tied).foldl
    (fun (st : PartialOrderManual × List Nat) group =>
      (group.foldl (fun m i => st.2.foldl (fun m j => m.set i j) m) st.1,
       st.2 ++ group))
    (PartialOrderManual.new order.length, [])).1

/-- `Tied::to_partial`. -/
def tiedToPartial (order : List Nat) (tied : List Bool) : PartialOrder :=
  (tiedToPartialManual order tied).finishUnchecked

/-- The relation-builder run of `ChainI::to_partial`
(src/orders/chain/incomplete/owned.rs:81-92): each entry is set below every
entry at an earlier position. -/
def ChainI.toPartialManual (c : ChainI) : PartialOrderManual :=
  c.order.enum.foldl
    (fun m x => (c.order.drop (x.1 + 1)).foldl (fun m e2 => m.set e2 x.2) m)
    (PartialOrderManual.new c.elements)

/-- `ChainI::to_partial`. -/
def ChainI.toPartial (c : ChainI) : PartialOrder :=
  c.toPartialManual.finishUnchecked

/-- The relation-builder run of `Specific::to_partial`
(src/orders/specific.rs:33-48): every element other than the winner is set
below the winner. -/
def Specific.toPartialManual (s : Specific) : PartialOrderManual :=
  (List.range s.elements).foldl
    (fun m i => if i = s.value then m else m.set i s.value)
    (PartialOrderManual.new s.elements)

/-- `Specific::to_partial`. -/
def Specific.toPartial (s : Specific) : PartialOrder :=
  s.toPartialManual.finishUnchecked

/-! ## Auxiliary definitions used by the proofs -/

/-- The list of `(lesser, greater)` pairs recorded by the tied `to_partial`
loop, computed group by group with the running `seen` list; used to
characterise `tiedToPartialManual`. -/
def tiedPairsAux : List (List Nat) → List Nat → List (Nat × Nat)
  | [], _ => []
  | g :: gs, seen => (g.flatMap fun i => seen.map fun j => (i, j)) ++ tiedPairsAux gs (seen ++ g)

/-- Cumulative end offsets of a list of widths, starting from offset `s`;
the shape `ChainIDense.orderEnd` takes after a batch of appends. -/
def cumFrom : Nat → List Nat → List Nat
  | _, [] => []
  | s, w :: ws => (s + w) :: cumFrom (s + w) ws

end OrdersRepo

namespace OrdersRepo

/-! # Theorems -/

/-- **C1.** The spec says interior removal merges the two adjacent tie flags
by AND and keeps every other flag unchanged in its relative position.  On
`TiedDense { orders: [1,2,0,3], ties: [false,true,true], elements: 4 }`,
removing element `0` (rank 2, interior) must by the claim yield ties
`[t₀, t₁ && t₂] = [false, true]`; the code's second `copy_within` targets
`start_new` instead of `start_new + removed`, overwriting the surviving flag
`t₀` with `t₂`, and produces `[true, true]`. -/
theorem C1_tie_merge_eval :
    TiedDense.removeElement ⟨[1, 2, 0, 3], [false, true, true], 4⟩ 0 =
      .ok ⟨[1, 2, 3], [true, true], 3⟩ ∧
    ([true, true] : List Bool) ≠ [false, true] := by
  constructor
  · decide
  · decide

/-- **C2.** The spec says `remove_element(target)` errors iff
`target ≥ elements()` for every dense kind.  `TotalDense::remove_element`
performs no range check: on `TotalDense { orders: [], elements: 1 }` with
target `5 ≥ 1` it returns `Ok` and decrements `elements` to 0; and
`ChainIDense::remove_element` is `todo!()`, panicking even for an in-range
target on a nonempty universe. -/
theorem C2_remove_error_contract_eval :
    TotalDense.removeElement ⟨[], 1⟩ 5 = .ok ⟨[], 0⟩ ∧
    ChainIDense.removeElement (ChainIDense.new 3) 0 = .crashed := by
  constructor
  · decide
  · decide

/-- **C3.** The spec says a successful `remove_element(target)` drops the
entry equal to `target` and decrements every entry greater than `target`.
`TiedDense` branches on `target.cmp(&el)` instead of `el.cmp(&target)`:
removing `0` from the order `[0,1]` leaves `[1]` (claim: `[0]`), an
out-of-range entry for the shrunken universe.  `TotalDense` removes the
entry at *position* `target` and re-ranks: removing `2` from `[2,0,1]`
yields `[1,0]` (claim: `[0,1]`). -/
theorem C3_remove_reindex_eval :
    TiedDense.removeElement ⟨[0, 1], [false], 2⟩ 0 = .ok ⟨[1], [], 1⟩ ∧
    TotalDense.removeElement ⟨[2, 0, 1], 3⟩ 2 = .ok ⟨[1, 0], 2⟩ := by
  constructor
  · decide
  · decide

/-- **C6.** The spec says every contract operation preserves the collection
validity predicate.  The collection
`TiedDense { orders: [0,1], ties: [false], elements: 2 }` is valid, yet
`remove_element(0)` succeeds and leaves `{ orders: [1], ties: [], elements: 1 }`,
whose single entry `1` is out of bounds for `elements = 1`: validity is not
preserved. -/
theorem C6_validity_not_preserved_eval :
    TiedDense.validB ⟨[0, 1], [false], 2⟩ = true ∧
    TiedDense.removeElement ⟨[0, 1], [false], 2⟩ 0 = .ok ⟨[1], [], 1⟩ ∧
    TiedDense.validB ⟨[1], [], 1⟩ = false := by
  refine ⟨by decide, by decide, by decide⟩

/-- **C7 (counterexample).** The claim says converting the tied order
`order=[2,0,1,3]`, `tied=[true,false,true]` (`elements=4`) to cardinal
scores yields `{2:3, 0:3, 1:1, 3:1}`, i.e. the per-element score row
`[3,1,3,1]`.  The code (and the spec's own formula `elements-1-groupIndex`)
assigns the second tie group score `4-1-1 = 2`, producing the row
`[3,2,3,2]`. -/
theorem C7_cardinal_scores_counterexample :
    cardinalOfTied ⟨[2, 0, 1, 3], [true, false, true], 4⟩ = .ok ⟨[3, 2, 3, 2], 4, 0, 3⟩ ∧
    ([3, 2, 3, 2] : List Nat) ≠ [3, 1, 3, 1] := by
  exact ⟨rfl, by decide⟩

/-- **C7 (amended).** Converting the `TiedDense` holding the single tied
order `order=[2,0,1,3]`, `tied=[true,false,true]` over `elements=4` to a
cardinal-scored collection assigns score 3 to elements 2 and 0, and score
**2** (= `elements-1-groupIndex`) to elements 1 and 3. -/
theorem C7_cardinal_scores_amended :
    (cardinalOfTied ⟨[2, 0, 1, 3], [true, false, true], 4⟩).map
      (fun cd => (cd.orders.getD 2 0, cd.orders.getD 0 0, cd.orders.getD 1 0, cd.orders.getD 3 0))
      = .ok (3, 3, 2, 2) := rfl

/-- **C4 (counterexample).** The claim says `push` returns
`Err(AddError::Elements)` iff the pushed order's element count differs from
the collection's.  Pushing the valid one-element tied order `([0], [])` onto
a `TiedDense` with `elements = 0` is a cardinality mismatch (`1 ≠ 0`), yet
the source's guard `order.len() != self.elements && self.elements != 0`
lets it through and `push` succeeds. -/
theorem C4_push_mismatch_counterexample :
    (TiedDense.push (TiedDense.new 0) [0] []).2 = none ∧
    tiedRefValid [0] [] = true ∧
    (1 : Nat) ≠ 0 := by
  refine ⟨by decide, by decide, by decide⟩

/-- **C4 (amended).** For every dense collection kind, the cardinality
check of `push` deviates from the claimed iff only when the collection's
`elements()` is 0: `TiedDense::push` returns `Err(AddError::Elements)` iff
the pushed order's element count differs from `elements()` *and*
`elements()` is nonzero (a mismatched push onto an `elements = 0` collection
is accepted); `ChainIDense::push` errors iff the counts differ;
`TotalDense`'s push slot (`add`) errors iff the counts differ *or*
`elements()` is 0 (even a matching push is rejected then).  Whenever `push`
returns any error the collection is unchanged. -/
theorem C4_push_error_contract (td : TiedDense) (order : List Nat) (tie : List Bool)
    (cd : ChainIDense) (vE : Nat) (vO : List Nat) (tt : TotalDense) (w : List Nat) :
    ((td.push order tie).2 = some .elements ↔
      order.length ≠ td.elements ∧ td.elements ≠ 0) ∧
    (∀ e, (td.push order tie).2 = some e → (td.push order tie).1 = td) ∧
    ((cd.push vE vO).2 = some .elements ↔ vE ≠ cd.elements) ∧
    (∀ e, (cd.push vE vO).2 = some e → (cd.push vE vO).1 = cd) ∧
    ((tt.add w).2 = some .elements ↔ w.length ≠ tt.elements ∨ tt.elements = 0) ∧
    (∀ e, (tt.add w).2 = some e → (tt.add w).1 = tt) := by
  refine ⟨?_, ?_, ?_, ?_, ?_, ?_⟩
  · unfold TiedDense.push
    split_ifs with h1 h2 h3
    · exact iff_of_true rfl h1
    · exact iff_of_false (by simp) h1
    · exact iff_of_false (by simp) h1
    · exact iff_of_false (by simp) h1
  · intro e
    unfold TiedDense.push
    split_ifs <;> simp
  · unfold ChainIDense.push
    split_ifs with h
    · exact iff_of_true rfl h
    · exact iff_of_false (by simp) h
  · intro e
    unfold ChainIDense.push
    split_ifs <;> simp
  · unfold TotalDense.add
    split_ifs with h1 h2
    · exact iff_of_true rfl h1
    · exact iff_of_false (by simp) h1
    · exact iff_of_false (by simp) h1
  · intro e
    unfold TotalDense.add
    split_ifs <;> simp

/-- **C4 (witness).** The amended error contract exercised at a mismatched
push onto a two-element `TiedDense` and at a matching empty push onto an
`elements = 0` `TotalDense` (rejected there despite matching). -/
theorem C4_push_error_contract_witness :
    (TiedDense.push ⟨[], [], 2⟩ [0] []).2 = some .elements ∧
    (TotalDense.add ⟨[], 0⟩ []).2 = some .elements :=
  ⟨(C4_push_error_contract ⟨[], [], 2⟩ [0] [] (ChainIDense.new 1) 1 [] ⟨[], 0⟩ []).1.mpr
      (by decide),
   (C4_push_error_contract ⟨[], [], 2⟩ [0] [] (ChainIDense.new 1) 1 [] ⟨[], 0⟩
      []).2.2.2.2.1.mpr (by decide)⟩

/-! ### Helper lemmas: the shuffler produces permutations -/

/-- Selecting position `j` and erasing it is a permutation-preserving step. -/
theorem perm_get_cons_eraseIdx {α : Type} (l : List α) (j : Nat) (h : j < l.length) :
    l.Perm (l.get ⟨j, h⟩ :: l.eraseIdx j) := by
  have h1 : l = l.take j ++ l[j] :: l.drop (j + 1) := by
    conv_lhs => rw [← List.take_append_drop j l]
    rw [List.drop_eq_getElem_cons h]
  rw [List.eraseIdx_eq_take_drop_succ, List.get_eq_getElem]
  conv_lhs => rw [h1]
  exact List.perm_middle

/-- The selection shuffle emits a permutation of its input. -/
theorem shuffleGo_perm {α : Type} :
    ∀ (fuel : Nat) (l : List α) (g : Rng), l.length ≤ fuel →
      (shuffleGo fuel l g).1.Perm l := by
  intro fuel
  induction fuel with
  | zero =>
    intro l g h
    cases l with
    | nil => simp [shuffleGo]
    | cons a l' => simp at h
  | succ n ih =>
    intro l g h
    cases l with
    | nil => simp [shuffleGo]
    | cons a l' =>
      have hj : (g.seed g.pos) % (a :: l').length < (a :: l').length :=
        Nat.mod_lt _ (Nat.succ_pos _)
      have hlen : ((a :: l').eraseIdx ((g.seed g.pos) % (a :: l').length)).length ≤ n := by
        rw [List.length_eraseIdx_of_lt hj]
        simpa using Nat.le_of_succ_le_succ h
      have hrec := ih ((a :: l').eraseIdx ((g.seed g.pos) % (a :: l').length))
        ⟨g.seed, g.pos + 1⟩ hlen
      have hstep := perm_get_cons_eraseIdx (a :: l') ((g.seed g.pos) % (a :: l').length) hj
      simp only [shuffleGo]
      exact (List.Perm.cons _ hrec).trans hstep.symm

/-- `shuffle` permutes. -/
theorem shuffle_perm {α : Type} (l : List α) (g : Rng) : (shuffle l g).1.Perm l :=
  shuffleGo_perm _ _ _ le_rfl

/-- `shuffle` preserves length. -/
theorem shuffle_length {α : Type} (l : List α) (g : Rng) :
    (shuffle l g).1.length = l.length :=
  (shuffle_perm l g).length_eq

/-- `coins` produces the requested number of flips. -/
theorem coins_length : ∀ (g : Rng) (n : Nat), (coins g n).1.length = n := by
  intro g n
  induction n generalizing g with
  | zero => simp [coins]
  | succ k ih => simp [coins, coin, Rng.next, ih]

/-! ### Helper lemmas: extracting rows from flat backing arrays -/

/-- Total length of a flat array made of fixed-width rows. -/
theorem flatten_fixed_length {E : Nat} :
    ∀ (cs : List (List Nat)), (∀ c ∈ cs, c.length = E) →
      cs.flatten.length = cs.length * E := by
  intro cs
  induction cs with
  | nil => simp
  | cons c cs ih =>
    intro h
    have hc := h c (List.mem_cons_self c cs)
    have hrest := ih (fun x hx => h x (List.mem_cons_of_mem _ hx))
    simp [List.flatten, hc, hrest, Nat.succ_mul, Nat.add_comm]

/-- Row `i` of a flat array of fixed-width rows. -/
theorem flatten_fixed_extract {E : Nat} :
    ∀ (cs : List (List Nat)), (∀ c ∈ cs, c.length = E) →
      ∀ i, i < cs.length →
        (cs.flatten.drop (i * E)).take E = cs.getD i [] := by
  intro cs
  induction cs with
  | nil => intro _ i hi; simp at hi
  | cons c cs ih =>
    intro h i hi
    have hc := h c (List.mem_cons_self c cs)
    cases i with
    | zero =>
      simp only [Nat.zero_mul, List.drop_zero, List.flatten_cons, List.getD]
      simpa using List.take_left' hc
    | succ i =>
      have hsum : (i + 1) * E = E + i * E := by ring
      have hdrop : (c ++ cs.flatten).drop ((i + 1) * E) = cs.flatten.drop (i * E) := by
        rw [hsum, ← List.drop_drop, List.drop_left' hc]
      simp only [List.flatten_cons, hdrop]
      exact ih (fun x hx => h x (List.mem_cons_of_mem _ hx)) i (Nat.lt_of_succ_lt_succ hi)

/-- Same, for boolean rows (tie flags). -/
theorem flatten_fixed_length_bool {E : Nat} :
    ∀ (bs : List (List Bool)), (∀ b ∈ bs, b.length = E) →
      bs.flatten.length = bs.length * E := by
  intro bs
  induction bs with
  | nil => simp
  | cons b bs ih =>
    intro h
    have hb := h b (List.mem_cons_self b bs)
    have hrest := ih (fun x hx => h x (List.mem_cons_of_mem _ hx))
    simp [List.flatten, hb, hrest, Nat.succ_mul, Nat.add_comm]

/-- Row `i` of a flat array of fixed-width boolean rows. -/
theorem flatten_fixed_extract_bool {E : Nat} :
    ∀ (bs : List (List Bool)), (∀ b ∈ bs, b.length = E) →
      ∀ i, i < bs.length →
        (bs.flatten.drop (i * E)).take E = bs.getD i [] := by
  intro bs
  induction bs with
  | nil => intro _ i hi; simp at hi
  | cons b bs ih =>
    intro h i hi
    have hb := h b (List.mem_cons_self b bs)
    cases i with
    | zero =>
      simp only [Nat.zero_mul, List.drop_zero, List.flatten_cons, List.getD]
      simpa using List.take_left' hb
    | succ i =>
      have hsum : (i + 1) * E = E + i * E := by ring
      have hdrop : (b ++ bs.flatten).drop ((i + 1) * E) = bs.flatten.drop (i * E) := by
        rw [hsum, ← List.drop_drop, List.drop_left' hb]
      simp only [List.flatten_cons, hdrop]
      exact ih (fun x hx => h x (List.mem_cons_of_mem _ hx)) i (Nat.lt_of_succ_lt_succ hi)

/-- Length of a cumulative-offset list. -/
theorem cumFrom_length : ∀ (s : Nat) (ws : List Nat), (cumFrom s ws).length = ws.length := by
  intro s ws
  induction ws generalizing s with
  | nil => simp [cumFrom]
  | cons w ws ih => simp [cumFrom, ih]

/-- Entry `i` of a cumulative-offset list is the running total. -/
theorem cumFrom_getD :
    ∀ (ws : List Nat) (s i : Nat), i < ws.length →
      (cumFrom s ws).getD i 0 = s + (ws.take (i + 1)).sum := by
  intro ws
  induction ws with
  | nil => intro s i hi; simp at hi
  | cons w ws ih =>
    intro s i hi
    cases i with
    | zero => simp [cumFrom]
    | succ i =>
      have := ih (s + w) i (Nat.lt_of_succ_lt_succ hi)
      simp only [cumFrom, List.getD_cons_succ, this, List.take_succ_cons, List.sum_cons]
      ring

/-- Row `i` of a flat array of variable-width rows, via the prefix sum of
the row lengths. -/
theorem flatten_var_extract :
    ∀ (cs : List (List Nat)) (i : Nat), i < cs.length →
      (cs.flatten.drop (((cs.map List.length).take i).sum)).take (cs.getD i []).length
        = cs.getD i [] := by
  intro cs
  induction cs with
  | nil => intro i hi; simp at hi
  | cons c cs ih =>
    intro i hi
    cases i with
    | zero => simp [List.take_left]
    | succ i =>
      have hdrop : (c ++ cs.flatten).drop (c.length + ((cs.map List.length).take i).sum)
          = cs.flatten.drop (((cs.map List.length).take i).sum) := by
        rw [← List.drop_drop, List.drop_left]
      simp only [List.flatten_cons, List.map_cons, List.take_succ_cons, List.sum_cons,
        List.getD_cons_succ, hdrop]
      exact ih i (Nat.lt_of_succ_lt_succ hi)

/-! ### Helper lemmas: chunk decompositions of the batch generators -/

/-- `totalGenGo` appends `k` rows, each a permutation of `0..E`. -/
theorem totalGenGo_chunks (E : Nat) :
    ∀ (k : Nat) (v : List Nat) (g : Rng) (acc : List Nat),
      v.Perm (List.range E) →
      ∃ cs : List (List Nat),
        totalGenGo k v g acc = acc ++ cs.flatten ∧
        cs.length = k ∧ ∀ c ∈ cs, c.Perm (List.range E) := by
  intro k
  induction k with
  | zero =>
    intro v g acc hv
    exact ⟨[], by simp [totalGenGo], rfl, by simp⟩
  | succ n ih =>
    intro v g acc hv
    rcases hsh : shuffle v g with ⟨v', g'⟩
    have hv' : v'.Perm (List.range E) := by
      have := shuffle_perm v g
      rw [hsh] at this
      exact this.trans hv
    obtain ⟨cs, h1, h2, h3⟩ := ih v' g' (acc ++ v') hv'
    refine ⟨v' :: cs, ?_, by simp [h2], ?_⟩
    · simp only [totalGenGo, hsh, h1, List.flatten_cons, List.append_assoc]
    · intro c hc
      rcases List.mem_cons.mp hc with rfl | hc'
      · exact hv'
      · exact h3 c hc'

/-- `tiedGenGo` appends `k` index rows (permutations of `0..E`) and `k` flag
rows of length `E - 1`. -/
theorem tiedGenGo_chunks (E : Nat) :
    ∀ (k : Nat) (v : List Nat) (g : Rng) (os : List Nat) (ts : List Bool),
      v.Perm (List.range E) →
      ∃ (cs : List (List Nat)) (bs : List (List Bool)),
        tiedGenGo E k v g (os, ts) = (os ++ cs.flatten, ts ++ bs.flatten) ∧
        cs.length = k ∧ bs.length = k ∧
        (∀ c ∈ cs, c.Perm (List.range E)) ∧ (∀ b ∈ bs, b.length = E - 1) := by
  intro k
  induction k with
  | zero =>
    intro v g os ts hv
    exact ⟨[], [], by simp [tiedGenGo], rfl, rfl, by simp, by simp⟩
  | succ n ih =>
    intro v g os ts hv
    rcases hsh : shuffle v g with ⟨v', g₁⟩
    rcases hcn : coins g₁ (E - 1) with ⟨bsnew, g₂⟩
    have hv' : v'.Perm (List.range E) := by
      have := shuffle_perm v g
      rw [hsh] at this
      exact this.trans hv
    have hbl : bsnew.length = E - 1 := by
      have := coins_length g₁ (E - 1)
      rw [hcn] at this
      exact this
    obtain ⟨cs, bs, h1, h2, h3, h4, h5⟩ := ih v' g₂ (os ++ v') (ts ++ bsnew) hv'
    refine ⟨v' :: cs, bsnew :: bs, ?_, by simp [h2], by simp [h3], ?_, ?_⟩
    · simp only [tiedGenGo, hsh, hcn, h1, List.flatten_cons, List.append_assoc]
    · intro c hc
      rcases List.mem_cons.mp hc with rfl | hc'
      · exact hv'
      · exact h4 c hc'
    · intro b hb
      rcases List.mem_cons.mp hb with rfl | hb'
      · exact hbl
      · exact h5 b hb'

/-- `chainIGenGo` appends `k` rows, each a duplicate-free bounded sequence
of length in `1..=E`, and the matching cumulative end offsets. -/
theorem chainIGenGo_chunks (E : Nat) (hE : 0 < E) :
    ∀ (k : Nat) (v : List Nat) (g : Rng) (os oe : List Nat),
      v.Perm (List.range E) → oe.getLastD 0 = os.length →
      ∃ cs : List (List Nat),
        chainIGenGo E k v g (os, oe)
          = (os ++ cs.flatten, oe ++ cumFrom os.length (cs.map List.length)) ∧
        cs.length = k ∧
        ∀ c ∈ cs, c.Nodup ∧ (∀ x ∈ c, x < E) ∧ 1 ≤ c.length ∧ c.length ≤ E := by
  intro k
  induction k with
  | zero =>
    intro v g os oe hv hlast
    exact ⟨[], by simp [chainIGenGo, cumFrom], rfl, by simp⟩
  | succ n ih =>
    intro v g os oe hv hlast
    rcases hsh : shuffle v ⟨g.seed, g.pos + 1⟩ with ⟨v', g₂⟩
    have hv' : v'.Perm (List.range E) := by
      have := shuffle_perm v ⟨g.seed, g.pos + 1⟩
      rw [hsh] at this
      exact this.trans hv
    have hvlen : v'.length = E := by simpa using hv'.length_eq
    set m : Nat := g.seed g.pos % E + 1 with hm
    have hm1 : 1 ≤ m := Nat.succ_le_succ (Nat.zero_le _)
    have hmE : m ≤ E := Nat.succ_le_of_lt (Nat.mod_lt _ hE)
    have hchunk_len : (v'.take m).length = m := by
      rw [List.length_take, hvlen]
      exact Nat.min_eq_left hmE
    have hlast' : (oe ++ [os.length + m]).getLastD 0 = (os ++ v'.take m).length := by
      rw [List.getLastD_concat, List.length_append, hchunk_len]
    obtain ⟨cs, h1, h2, h3⟩ :=
      ih v' g₂ (os ++ v'.take m) (oe ++ [os.length + m]) hv' hlast'
    refine ⟨v'.take m :: cs, ?_, by simp [h2], ?_⟩
    · simp only [chainIGenGo, randRange, Rng.next, hsh, hlast, ← hm]
      rw [h1]
      simp only [List.map_cons, hchunk_len, cumFrom, List.flatten_cons, List.append_assoc,
        List.length_append, List.cons_append, List.nil_append]
    · intro c hc
      rcases List.mem_cons.mp hc with rfl | hc'
      · have hnodup : v'.Nodup := hv'.symm.nodup (List.nodup_range E)
        refine ⟨(List.take_sublist _ _).nodup hnodup, ?_, ?_, ?_⟩
        · intro x hx
          have : x ∈ v' := List.take_subset _ _ hx
          have := hv'.mem_iff.mp this
          simpa using this
        · rw [hchunk_len]; exact hm1
        · rw [hchunk_len]; exact hmE
      · exact h3 c hc'

/-- Membership of the `i`-th row in the chunk list. -/
theorem getD_mem_of_lt {α : Type} (cs : List α) (d : α) {i : Nat} (hi : i < cs.length) :
    cs.getD i d ∈ cs := by
  rw [List.getD_eq_getElem cs d hi]
  exact List.getElem_mem hi

/-- After `generate_uniform(count)` on an empty `TotalDense` with
`elements = E > 0`: `len = count` and every row is a permutation row. -/
theorem totalDense_generated_rows (E count : Nat) (g : Rng) (hE : 0 < E) :
    ((TotalDense.new E).generateUniform g count).len = count ∧
    ∀ i, i < count →
      (((TotalDense.new E).generateUniform g count).getOrder i).length = E ∧
      (((TotalDense.new E).generateUniform g count).getOrder i).Nodup ∧
      ∀ x ∈ ((TotalDense.new E).generateUniform g count).getOrder i, x < E := by
  obtain ⟨cs, hcs1, hcs2, hcs3⟩ :=
    totalGenGo_chunks E count (List.range E) g [] (List.Perm.refl _)
  have hlen : ∀ c ∈ cs, c.length = E := fun c hc => by
    simpa using (hcs3 c hc).length_eq
  have htd : (TotalDense.new E).generateUniform g count = ⟨cs.flatten, E⟩ := by
    simp [TotalDense.generateUniform, TotalDense.new, hE.ne', hcs1]
  have hflat : cs.flatten.length = count * E := by
    rw [flatten_fixed_length cs hlen, hcs2]
  refine ⟨?_, ?_⟩
  · rw [htd]
    simp [TotalDense.len, hE.ne', hflat, Nat.mul_div_cancel _ hE]
  · intro i hi
    have hi' : i < cs.length := hcs2 ▸ hi
    have hrow : ((TotalDense.new E).generateUniform g count).getOrder i = cs.getD i [] := by
      rw [htd]
      exact flatten_fixed_extract cs hlen i hi'
    have hperm := hcs3 _ (getD_mem_of_lt cs [] hi')
    refine ⟨?_, ?_, ?_⟩
    · rw [hrow]; simpa using hperm.length_eq
    · rw [hrow]; exact hperm.symm.nodup (List.nodup_range E)
    · intro x hx
      rw [hrow] at hx
      simpa using hperm.mem_iff.mp hx

/-- After `generate_uniform(count)` on an empty `TiedDense` with
`elements = E > 0`: `len = count`, permutation rows, tie rows of length
`E - 1`. -/
theorem tiedDense_generated_rows (E count : Nat) (g : Rng) (hE : 0 < E) :
    ((TiedDense.new E).generateUniform g count).len = count ∧
    ∀ i, i < count →
      (((TiedDense.new E).generateUniform g count).getOrder i).length = E ∧
      (((TiedDense.new E).generateUniform g count).getOrder i).Nodup ∧
      (∀ x ∈ ((TiedDense.new E).generateUniform g count).getOrder i, x < E) ∧
      (((TiedDense.new E).generateUniform g count).getTies i).length = E - 1 := by
  obtain ⟨cs, bs, h1, h2, h3, h4, h5⟩ :=
    tiedGenGo_chunks E count (List.range E) g [] [] (List.Perm.refl _)
  have hlen : ∀ c ∈ cs, c.length = E := fun c hc => by
    simpa using (h4 c hc).length_eq
  have htd : (TiedDense.new E).generateUniform g count = ⟨cs.flatten, bs.flatten, E⟩ := by
    simp [TiedDense.generateUniform, TiedDense.new, hE.ne', h1]
  have hflat : cs.flatten.length = count * E := by
    rw [flatten_fixed_length cs hlen, h2]
  refine ⟨?_, ?_⟩
  · rw [htd]
    simp [TiedDense.len, hE.ne', hflat, Nat.mul_div_cancel _ hE]
  · intro i hi
    have hi' : i < cs.length := h2 ▸ hi
    have hib : i < bs.length := h3 ▸ hi
    have hrow : ((TiedDense.new E).generateUniform g count).getOrder i = cs.getD i [] := by
      rw [htd]
      exact flatten_fixed_extract cs hlen i hi'
    have hties : ((TiedDense.new E).generateUniform g count).getTies i = bs.getD i [] := by
      rw [htd]
      exact flatten_fixed_extract_bool bs h5 i hib
    have hperm := h4 _ (getD_mem_of_lt cs [] hi')
    refine ⟨?_, ?_, ?_, ?_⟩
    · rw [hrow]; simpa using hperm.length_eq
    · rw [hrow]; exact hperm.symm.nodup (List.nodup_range E)
    · intro x hx
      rw [hrow] at hx
      simpa using hperm.mem_iff.mp hx
    · rw [hties]
      exact h5 _ (getD_mem_of_lt bs [] hib)

/-- After `generate_uniform(count)` on an empty `ChainIDense` with
`elements = E > 0`: `len = count` and every row is duplicate-free, bounded,
and of length in `1..=E`. -/
theorem chainIDense_generated_rows (E count : Nat) (g : Rng) (hE : 0 < E) :
    ((ChainIDense.new E).generateUniform g count).len = count ∧
    ∀ i, i < count →
      (((ChainIDense.new E).generateUniform g count).getOrder i).Nodup ∧
      (∀ x ∈ ((ChainIDense.new E).generateUniform g count).getOrder i, x < E) ∧
      1 ≤ (((ChainIDense.new E).generateUniform g count).getOrder i).length ∧
      (((ChainIDense.new E).generateUniform g count).getOrder i).length ≤ E := by
  obtain ⟨cs, h1, h2, h3⟩ :=
    chainIGenGo_chunks E hE count (List.range E) g [] [] (List.Perm.refl _) rfl
  have hcd : (ChainIDense.new E).generateUniform g count
      = ⟨cs.flatten, cumFrom 0 (cs.map List.length), E⟩ := by
    simp only [ChainIDense.generateUniform, ChainIDense.new, hE.ne', if_neg]
    rw [h1]
    simp
  have hwlen : (cs.map List.length).length = cs.length := List.length_map _ _
  refine ⟨?_, ?_⟩
  · rw [hcd]
    simp [ChainIDense.len, cumFrom_length, hwlen, h2]
  · intro i hi
    have hi' : i < cs.length := h2 ▸ hi
    have hiw : i < (cs.map List.length).length := by rw [hwlen]; exact hi'
    have hgetw : (cs.map List.length).getD i 0 = (cs.getD i []).length := by
      rw [List.getD_eq_getElem _ _ hiw, List.getD_eq_getElem _ _ hi', List.getElem_map]
    have hstart : (if i = 0 then 0 else (cumFrom 0 (cs.map List.length)).getD (i - 1) 0)
        = ((cs.map List.length).take i).sum := by
      cases i with
      | zero => simp
      | succ j =>
        have hj : j < (cs.map List.length).length := Nat.lt_of_succ_lt hiw
        simp only [Nat.succ_ne_zero, if_false, Nat.succ_sub_one]
        rw [cumFrom_getD _ 0 j hj, Nat.zero_add]
    have hstop : (cumFrom 0 (cs.map List.length)).getD i 0
        = ((cs.map List.length).take i).sum + (cs.getD i []).length := by
      rw [cumFrom_getD _ 0 i hiw, Nat.zero_add, List.sum_take_succ _ i hiw,
        ← hgetw, List.getD_eq_getElem _ _ hiw]
    have hrow : ((ChainIDense.new E).generateUniform g count).getOrder i = cs.getD i [] := by
      rw [hcd]
      unfold ChainIDense.getOrder
      simp only [hstart, hstop, Nat.add_sub_cancel_left]
      exact flatten_var_extract cs i hi'
    obtain ⟨hnodup, hbound, hlow, hhigh⟩ := h3 _ (getD_mem_of_lt cs [] hi')
    rw [hrow]
    exact ⟨hnodup, hbound, hlow, hhigh⟩

/-- `ChainI::random` returns an order of length `seed % elements`. -/
theorem chainI_random_length (g : Rng) (E : Nat) (hE : 0 < E) :
    (ChainI.random g E).order.length = g.seed g.pos % E := by
  rw [ChainI.random, if_neg hE.ne']
  simp only [randRange, Rng.next, chooseMultiple]
  rw [shuffle_length, List.length_take, shuffle_length, List.length_range]
  exact Nat.min_eq_left (Nat.le_of_lt (Nat.mod_lt _ hE))

/-- **C5 (counterexample).** The claim quantifies over *every* `elements`
value, but `generate_uniform` is a no-op when `elements = 0`: on a fresh
`TotalDense` with `elements = 0`, `generate_uniform(_, 1)` leaves
`len() = 0 ≠ 1`. -/
theorem C5_generate_zero_elements_counterexample :
    TotalDense.len (TotalDense.generateUniform (TotalDense.new 0) ⟨fun _ => 0, 0⟩ 1) = 0 ∧
    (0 : Nat) ≠ 1 :=
  ⟨rfl, by decide⟩

/-- **C5 (amended).** For every dense collection kind and every
`elements > 0` (for `elements = 0` the generators are no-ops), calling
`generate_uniform(rng, count)` on an empty collection leaves
`len() == count`, and every retrieved order satisfies its variant's validity
rule: entries unique and bounded by `elements` (full-length permutation rows
for the fixed-width kinds), a tie-flag row of length `elements - 1` for the
tied kind, and a per-order length between 1 and `elements` for the
variable-width chain kind. -/
theorem C5_generate_uniform_valid (E count : Nat) (g : Rng) (hE : 0 < E) :
    (((TotalDense.new E).generateUniform g count).len = count ∧
      ∀ i, i < count →
        (((TotalDense.new E).generateUniform g count).getOrder i).length = E ∧
        (((TotalDense.new E).generateUniform g count).getOrder i).Nodup ∧
        ∀ x ∈ ((TotalDense.new E).generateUniform g count).getOrder i, x < E) ∧
    (((TiedDense.new E).generateUniform g count).len = count ∧
      ∀ i, i < count →
        (((TiedDense.new E).generateUniform g count).getOrder i).length = E ∧
        (((TiedDense.new E).generateUniform g count).getOrder i).Nodup ∧
        (∀ x ∈ ((TiedDense.new E).generateUniform g count).getOrder i, x < E) ∧
        (((TiedDense.new E).generateUniform g count).getTies i).length = E - 1) ∧
    (((ChainIDense.new E).generateUniform g count).len = count ∧
      ∀ i, i < count →
        (((ChainIDense.new E).generateUniform g count).getOrder i).Nodup ∧
        (∀ x ∈ ((ChainIDense.new E).generateUniform g count).getOrder i, x < E) ∧
        1 ≤ (((ChainIDense.new E).generateUniform g count).getOrder i).length ∧
        (((ChainIDense.new E).generateUniform g count).getOrder i).length ≤ E) :=
  ⟨totalDense_generated_rows E count g hE,
   tiedDense_generated_rows E count g hE,
   chainIDense_generated_rows E count g hE⟩

/-- **C5 (witness).** The amended generation theorem at `elements = 2`,
`count = 1`, and the all-zero generator. -/
theorem C5_generate_uniform_valid_witness :
    ((TotalDense.new 2).generateUniform ⟨fun _ => 0, 0⟩ 1).len = 1 ∧
    ((TiedDense.new 2).generateUniform ⟨fun _ => 0, 0⟩ 1).len = 1 ∧
    ((ChainIDense.new 2).generateUniform ⟨fun _ => 0, 0⟩ 1).len = 1 :=
  ⟨(C5_generate_uniform_valid 2 1 ⟨fun _ => 0, 0⟩ (by decide)).1.1,
   (C5_generate_uniform_valid 2 1 ⟨fun _ => 0, 0⟩ (by decide)).2.1.1,
   (C5_generate_uniform_valid 2 1 ⟨fun _ => 0, 0⟩ (by decide)).2.2.1⟩

/-- **C10.** For every `elements > 0` and every generator state, the
single-order generator `ChainI::random` returns a chain of length strictly
less than `elements` (it samples `random_range(0..elements)`, so it never
returns a complete chain and can return the empty one), while the
collection-level `ChainIDense::generate_uniform` produces per-order lengths
ranging over `1..=elements`. -/
theorem C10_chainI_random_strictly_shorter (g : Rng) (E : Nat) (hE : 0 < E) :
    (ChainI.random g E).order.length < E ∧
    (∃ g₀ : Rng, (ChainI.random g₀ E).order.length = 0) ∧
    ∀ (g' : Rng) (count i : Nat), i < count →
      1 ≤ (((ChainIDense.new E).generateUniform g' count).getOrder i).length ∧
      (((ChainIDense.new E).generateUniform g' count).getOrder i).length ≤ E := by
  refine ⟨?_, ?_, ?_⟩
  · rw [chainI_random_length g E hE]
    exact Nat.mod_lt _ hE
  · refine ⟨⟨fun _ => 0, 0⟩, ?_⟩
    rw [chainI_random_length ⟨fun _ => 0, 0⟩ E hE]
    exact Nat.zero_mod E
  · intro g' count i hi
    obtain ⟨-, hrows⟩ := chainIDense_generated_rows E count g' hE
    obtain ⟨-, -, hlow, hhigh⟩ := hrows i hi
    exact ⟨hlow, hhigh⟩

/-- **C10 (witness).** The single-order/collection-level length contrast at
`elements = 3` with the all-zero generator. -/
theorem C10_chainI_random_strictly_shorter_witness :
    (ChainI.random ⟨fun _ => 0, 0⟩ 3).order.length < 3 ∧
    1 ≤ (((ChainIDense.new 3).generateUniform ⟨fun _ => 0, 0⟩ 1).getOrder 0).length :=
  ⟨(C10_chainI_random_strictly_shorter ⟨fun _ => 0, 0⟩ 3 (by decide)).1,
   ((C10_chainI_random_strictly_shorter ⟨fun _ => 0, 0⟩ 3 (by decide)).2.2
     ⟨fun _ => 0, 0⟩ 1 0 (by decide)).1⟩

/-! ### Helper lemmas: the relation sets supplied to `finish_unchecked` -/

/-- `finish_unchecked` hands the recorded pairs over verbatim, so a strict
query succeeds exactly on a recorded pair. -/
theorem ltB_iff_mem (p : PartialOrder) (a b : Nat) :
    p.ltB a b = true ↔ (a, b) ∈ p.pairs := by
  simp [PartialOrder.ltB, List.contains_iff_exists_mem_beq]

/-- Folding `set i ·` over `seen` appends one pair per seen element. -/
theorem pairs_foldl_set_inner (seen : List Nat) (i : Nat) :
    ∀ m : PartialOrderManual,
      (seen.foldl (fun m j => m.set i j) m).pairs = m.pairs ++ seen.map (fun j => (i, j)) := by
  induction seen with
  | nil => intro m; simp
  | cons j seen ih =>
    intro m
    simp only [List.foldl_cons, ih, List.map_cons]
    simp [PartialOrderManual.set]

/-- Folding the tied inner double loop appends the group × seen pairs. -/
theorem pairs_foldl_set_group (g seen : List Nat) :
    ∀ m : PartialOrderManual,
      (g.foldl (fun m i => seen.foldl (fun m j => m.set i j) m) m).pairs
        = m.pairs ++ g.flatMap (fun i => seen.map (fun j => (i, j))) := by
  induction g with
  | nil => intro m; simp
  | cons i g ih =>
    intro m
    simp only [List.foldl_cons, ih, pairs_foldl_set_inner, List.flatMap_cons, List.append_assoc]

/-- The pairs recorded by the whole groups loop of `Tied::to_partial`. -/
theorem tiedManual_pairs_aux :
    ∀ (gs : List (List Nat)) (m : PartialOrderManual) (seen : List Nat),
      ((gs.foldl
          (fun (st : PartialOrderManual × List Nat) group =>
            (group.foldl (fun m i => st.2.foldl (fun m j => m.set i j) m) st.1,
             st.2 ++ group))
          (m, seen)).1).pairs
        = m.pairs ++ tiedPairsAux gs seen := by
  intro gs
  induction gs with
  | nil => intro m seen; simp [tiedPairsAux]
  | cons g gs ih =>
    intro m seen
    simp only [List.foldl_cons]
    rw [ih]
    simp only [tiedPairsAux, pairs_foldl_set_group, List.append_assoc]

/-- The pairs recorded by `Tied::to_partial`. -/
theorem tiedManual_pairs (order : List Nat) (tied : List Bool) :
    (tiedToPartialManual order tied).pairs = tiedPairsAux (iterGroups order tied) [] := by
  unfold tiedToPartialManual
  rw [tiedManual_pairs_aux]
  simp [PartialOrderManual.new]

/-- Membership in the tied pair set: the lesser element lies in a strictly
later group (or `y` was already seen before the walk started). -/
theorem mem_tiedPairsAux :
    ∀ (gs : List (List Nat)) (seen : List Nat) (x y : Nat),
      ((x, y) ∈ tiedPairsAux gs seen ↔
        ∃ k, k < gs.length ∧ x ∈ gs.getD k [] ∧
          (y ∈ seen ∨ ∃ l, l < k ∧ y ∈ gs.getD l [])) := by
  intro gs
  induction gs with
  | nil => intro seen x y; simp [tiedPairsAux]
  | cons g gs ih =>
    intro seen x y
    simp only [tiedPairsAux, List.mem_append, List.mem_flatMap, List.mem_map, ih]
    constructor
    · rintro (⟨i, hi, j, hj, hij⟩ | ⟨k, hk, hx, hy⟩)
      · injection hij with h1 h2
        subst h1; subst h2
        exact ⟨0, Nat.succ_pos _, by simpa using hi, Or.inl hj⟩
      · rcases hy with hyseen | ⟨l, hl, hyl⟩
        · rcases hyseen with h | h
          · exact ⟨k + 1, Nat.succ_lt_succ hk, by simpa using hx, Or.inl h⟩
          · exact ⟨k + 1, Nat.succ_lt_succ hk, by simpa using hx,
              Or.inr ⟨0, Nat.succ_pos _, by simpa using h⟩⟩
        · exact ⟨k + 1, Nat.succ_lt_succ hk, by simpa using hx,
            Or.inr ⟨l + 1, Nat.succ_lt_succ hl, by simpa using hyl⟩⟩
    · rintro ⟨k, hk, hx, hy⟩
      cases k with
      | zero =>
        rcases hy with hyseen | ⟨l, hl, _⟩
        · exact Or.inl ⟨x, by simpa using hx, y, hyseen, rfl⟩
        · exact absurd hl (Nat.not_lt_zero l)
      | succ k =>
        refine Or.inr ⟨k, Nat.lt_of_succ_lt_succ hk, by simpa using hx, ?_⟩
        rcases hy with hyseen | ⟨l, hl, hyl⟩
        · exact Or.inl (Or.inl hyseen)
        · cases l with
          | zero => exact Or.inl (Or.inr (by simpa using hyl))
          | succ l => exact Or.inr ⟨l, Nat.lt_of_succ_lt_succ hl, by simpa using hyl⟩

/-- Concatenating the groups of a tied order recovers the order. -/
theorem iterGroupsAux_flatten :
    ∀ (xs : List Nat) (ts : List Bool) (cur : List Nat),
      (iterGroupsAux xs ts cur).flatten = cur ++ xs := by
  intro xs
  induction xs with
  | nil => intro ts cur; simp [iterGroupsAux]
  | cons x xs ih =>
    intro ts cur
    cases ts with
    | nil => simp [iterGroupsAux, ih]
    | cons t ts =>
      by_cases h : t = true
      · subst h; simp [iterGroupsAux, ih]
      · rw [Bool.not_eq_true] at h
        subst h
        simp [iterGroupsAux, ih]

/-- The groups of a tied order partition the order. -/
theorem iterGroups_flatten (order : List Nat) (tied : List Bool) :
    (iterGroups order tied).flatten = order := by
  cases order with
  | nil => simp [iterGroups]
  | cons x xs => simpa using iterGroupsAux_flatten xs tied [x]

/-- With a duplicate-free concatenation, an element determines its group. -/
theorem getD_eq_of_nodup_flatten :
    ∀ (gs : List (List Nat)), gs.flatten.Nodup →
      ∀ k l x, k < gs.length → l < gs.length →
        x ∈ gs.getD k [] → x ∈ gs.getD l [] → k = l := by
  intro gs
  induction gs with
  | nil => intro _ k l x hk; simp at hk
  | cons g gs ih =>
    intro hnd k l x hk hl hxk hxl
    rw [List.flatten_cons, List.nodup_append] at hnd
    obtain ⟨hg, hrest, hdisj⟩ := hnd
    cases k with
    | zero =>
      cases l with
      | zero => rfl
      | succ l =>
        exfalso
        exact hdisj (by simpa using hxk)
          (List.mem_flatten_of_mem (getD_mem_of_lt gs [] (Nat.lt_of_succ_lt_succ hl))
            (by simpa using hxl))
    | succ k =>
      cases l with
      | zero =>
        exfalso
        exact hdisj (by simpa using hxl)
          (List.mem_flatten_of_mem (getD_mem_of_lt gs [] (Nat.lt_of_succ_lt_succ hk))
            (by simpa using hxk))
      | succ l =>
        have := ih hrest k l x (Nat.lt_of_succ_lt_succ hk) (Nat.lt_of_succ_lt_succ hl)
          (by simpa using hxk) (by simpa using hxl)
        omega

/-- A valid tied order has a duplicate-free index sequence. -/
theorem tiedRefValid_nodup {order : List Nat} {tied : List Bool}
    (h : tiedRefValid order tied = true) : order.Nodup := by
  unfold tiedRefValid uniqueAndBounded at h
  simp only [Bool.and_eq_true, decide_eq_true_eq] at h
  exact h.2.2

/-- Folding the chain inner loop appends one pair per later entry. -/
theorem pairs_foldl_set_chain_inner (rest : List Nat) (e1 : Nat) :
    ∀ m : PartialOrderManual,
      (rest.foldl (fun m e2 => m.set e2 e1) m).pairs
        = m.pairs ++ rest.map (fun e2 => (e2, e1)) := by
  induction rest with
  | nil => intro m; simp
  | cons e2 rest ih =>
    intro m
    simp only [List.foldl_cons, ih, List.map_cons]
    simp [PartialOrderManual.set]

/-- The pairs recorded by the enumerated outer loop of `ChainI::to_partial`. -/
theorem pairs_foldl_chain (order : List Nat) :
    ∀ (l : List (Nat × Nat)) (m : PartialOrderManual),
      ((l.foldl (fun m x => (order.drop (x.1 + 1)).foldl (fun m e2 => m.set e2 x.2) m) m)).pairs
        = m.pairs ++ l.flatMap (fun p => (order.drop (p.1 + 1)).map (fun e2 => (e2, p.2))) := by
  intro l
  induction l with
  | nil => intro m; simp
  | cons p l ih =>
    intro m
    simp only [List.foldl_cons, ih, pairs_foldl_set_chain_inner, List.flatMap_cons,
      List.append_assoc]

/-- The pairs recorded by `ChainI::to_partial`. -/
theorem chainManual_pairs (E : Nat) (order : List Nat) :
    (ChainI.toPartialManual ⟨E, order⟩).pairs
      = order.enum.flatMap (fun p => (order.drop (p.1 + 1)).map (fun e2 => (e2, p.2))) := by
  unfold ChainI.toPartialManual
  rw [pairs_foldl_chain]
  simp [PartialOrderManual.new]

/-- Membership in the chain pair set: the lesser element occupies a strictly
later position. -/
theorem mem_chainPairs (order : List Nat) (x y : Nat) :
    ((x, y) ∈ order.enum.flatMap (fun p => (order.drop (p.1 + 1)).map (fun e2 => (e2, p.2))))
      ↔ ∃ i j, i < j ∧ j < order.length ∧ order.getD j 0 = x ∧ order.getD i 0 = y := by
  simp only [List.mem_flatMap, List.mem_map]
  constructor
  · rintro ⟨⟨i, e1⟩, hmem, e2, he2, heq⟩
    injection heq with h1 h2
    subst h1; subst h2
    have hi := List.mem_enum_iff_getElem?.mp hmem
    obtain ⟨hilt, hieq⟩ := List.getElem?_eq_some_iff.mp hi
    obtain ⟨k, hk, he⟩ := List.mem_iff_getElem.mp he2
    rw [List.getElem_drop] at he
    have hklen : i + 1 + k < order.length := by
      have := hk
      rw [List.length_drop] at this
      omega
    refine ⟨i, i + 1 + k, by omega, hklen, ?_, ?_⟩
    · rw [List.getD_eq_getElem _ _ hklen]
      exact he
    · rw [List.getD_eq_getElem _ _ hilt]
      exact hieq
  · rintro ⟨i, j, hij, hj, hx, hy⟩
    have hi : i < order.length := Nat.lt_trans hij hj
    refine ⟨(i, order.getD i 0), ?_, order.getD j 0, ?_, ?_⟩
    · apply List.mem_enum_iff_getElem?.mpr
      simp only [List.getD_eq_getElem _ _ hi]
      exact List.getElem?_eq_getElem hi
    · apply List.mem_iff_getElem.mpr
      refine ⟨j - (i + 1), ?_, ?_⟩
      · rw [List.length_drop]; omega
      · rw [List.getElem_drop, List.getD_eq_getElem _ _ hj]
        congr 1
        omega
    · rw [hx, hy]

/-- The pairs recorded by `Specific::to_partial`. -/
theorem pairs_foldl_specific (v : Nat) :
    ∀ (l : List Nat) (m : PartialOrderManual),
      ((l.foldl (fun m i => if i = v then m else m.set i v) m)).pairs
        = m.pairs ++ (l.filter (fun i => !(i == v))).map (fun i => (i, v)) := by
  intro l
  induction l with
  | nil => intro m; simp
  | cons i l ih =>
    intro m
    by_cases h : i = v
    · subst h
      simp only [List.foldl_cons, if_pos rfl, ih, List.filter_cons]
      simp
    · simp only [List.foldl_cons, if_neg h, ih, List.filter_cons]
      have hb : (!(i == v)) = true := by simp [h]
      simp [hb, PartialOrderManual.set]

/-- The pair set built by `Tied::to_partial` satisfies the
`finish_unchecked` precondition. -/
theorem tied_consistent (order : List Nat) (tied : List Bool)
    (h : tiedRefValid order tied = true) :
    manualConsistent (tiedToPartialManual order tied) := by
  have hnodup := tiedRefValid_nodup h
  have hnd : (iterGroups order tied).flatten.Nodup := by
    rw [iterGroups_flatten]; exact hnodup
  set gs := iterGroups order tied with hgs
  have hmem : ∀ x y, ((x, y) ∈ (tiedToPartialManual order tied).pairs ↔
      ∃ k, k < gs.length ∧ x ∈ gs.getD k [] ∧ ∃ l, l < k ∧ y ∈ gs.getD l []) := by
    intro x y
    rw [tiedManual_pairs, mem_tiedPairsAux]
    simp
  constructor
  · rintro ⟨x, y⟩ hp
    obtain ⟨k, hk, hxk, l, hl, hyl⟩ := (hmem x y).mp hp
    dsimp only
    constructor
    · rintro rfl
      exact absurd (getD_eq_of_nodup_flatten gs hnd k l x hk (Nat.lt_trans hl hk) hxk hyl)
        (by omega)
    · intro hrev
      obtain ⟨k', hk', hyk', l', hl', hxl'⟩ := (hmem y x).mp hrev
      have h1 := getD_eq_of_nodup_flatten gs hnd k l' x hk (Nat.lt_trans hl' hk') hxk hxl'
      have h2 := getD_eq_of_nodup_flatten gs hnd l k' y (Nat.lt_trans hl hk) hk' hyl hyk'
      omega
  · intro a b c hab hbc
    obtain ⟨k1, hk1, hak1, l1, hl1, hbl1⟩ := (hmem a b).mp hab
    obtain ⟨k2, hk2, hbk2, l2, hl2, hcl2⟩ := (hmem b c).mp hbc
    have heq := getD_eq_of_nodup_flatten gs hnd l1 k2 b (Nat.lt_trans hl1 hk1) hk2 hbl1 hbk2
    exact (hmem a c).mpr ⟨k1, hk1, hak1, l2, by omega, hcl2⟩

/-- The relation built by `Tied::to_partial` ranks `x` strictly below `y`
iff `x` lies in a strictly later tie group than `y`. -/
theorem tied_lt_iff (order : List Nat) (tied : List Bool) (x y : Nat) :
    (tiedToPartial order tied).ltB x y = true ↔
      ∃ k, k < (iterGroups order tied).length ∧ x ∈ (iterGroups order tied).getD k [] ∧
        ∃ l, l < k ∧ y ∈ (iterGroups order tied).getD l [] := by
  rw [ltB_iff_mem]
  simp only [tiedToPartial, PartialOrderManual.finishUnchecked]
  rw [tiedManual_pairs, mem_tiedPairsAux]
  simp

/-- Positions in a duplicate-free list are determined by their entries. -/
theorem nodup_getD_inj {order : List Nat} (hnodup : order.Nodup) :
    ∀ i j, i < order.length → j < order.length →
      order.getD i 0 = order.getD j 0 → i = j := by
  intro i j hi hj hEq
  rw [List.getD_eq_getElem _ _ hi, List.getD_eq_getElem _ _ hj] at hEq
  have h1 := List.indexOf_getElem hnodup i hi
  rw [hEq] at h1
  have h2 := List.indexOf_getElem hnodup j hj
  rw [h1] at h2
  exact h2

/-- The pair set built by `ChainI::to_partial` satisfies the
`finish_unchecked` precondition. -/
theorem chain_consistent (c : ChainI) (h : uniqueAndBounded c.elements c.order = true) :
    manualConsistent c.toPartialManual := by
  obtain ⟨E, order⟩ := c
  have hnodup : order.Nodup := by
    unfold uniqueAndBounded at h
    simp only [Bool.and_eq_true, decide_eq_true_eq] at h
    exact h.2
  have hmem : ∀ x y, ((x, y) ∈ (ChainI.toPartialManual ⟨E, order⟩).pairs ↔
      ∃ i j, i < j ∧ j < order.length ∧ order.getD j 0 = x ∧ order.getD i 0 = y) := by
    intro x y
    rw [chainManual_pairs]
    exact mem_chainPairs order x y
  constructor
  · rintro ⟨x, y⟩ hp
    obtain ⟨i, j, hij, hj, hx, hy⟩ := (hmem x y).mp hp
    dsimp only
    constructor
    · rintro rfl
      have := nodup_getD_inj hnodup i j (Nat.lt_trans hij hj) hj (by rw [hy, hx])
      omega
    · intro hrev
      obtain ⟨i', j', hij', hj', hx', hy'⟩ := (hmem y x).mp hrev
      have e1 := nodup_getD_inj hnodup j i' hj (Nat.lt_trans hij' hj') (by rw [hx, hy'])
      have e2 := nodup_getD_inj hnodup i j' (Nat.lt_trans hij hj) hj' (by rw [hy, hx'])
      omega
  · intro a b c hab hbc
    obtain ⟨i, j, hij, hj, hxa, hyb⟩ := (hmem a b).mp hab
    obtain ⟨i', j', hij', hj', hxb, hyc⟩ := (hmem b c).mp hbc
    have e := nodup_getD_inj hnodup i j' (Nat.lt_trans hij hj) hj' (by rw [hyb, hxb])
    exact (hmem a c).mpr ⟨i', j, by omega, hj, hxa, hyc⟩

/-- The relation built by `ChainI::to_partial` ranks `x` strictly below `y`
iff both are ranked and `x` occupies a strictly later position. -/
theorem chain_lt_iff (c : ChainI) (h : uniqueAndBounded c.elements c.order = true)
    (x y : Nat) :
    c.toPartial.ltB x y = true ↔
      (x ∈ c.order ∧ y ∈ c.order ∧ c.order.indexOf y < c.order.indexOf x) := by
  obtain ⟨E, order⟩ := c
  have hnodup : order.Nodup := by
    unfold uniqueAndBounded at h
    simp only [Bool.and_eq_true, decide_eq_true_eq] at h
    exact h.2
  rw [ltB_iff_mem]
  simp only [ChainI.toPartial, PartialOrderManual.finishUnchecked]
  rw [chainManual_pairs]
  rw [mem_chainPairs]
  constructor
  · rintro ⟨i, j, hij, hj, hx, hy⟩
    have hi : i < order.length := Nat.lt_trans hij hj
    have hxmem : x ∈ order := by
      rw [← hx, List.getD_eq_getElem _ _ hj]
      exact List.getElem_mem hj
    have hymem : y ∈ order := by
      rw [← hy, List.getD_eq_getElem _ _ hi]
      exact List.getElem_mem hi
    have hx' : order.indexOf x = j := by
      rw [← hx, List.getD_eq_getElem _ _ hj]
      exact List.indexOf_getElem hnodup j hj
    have hy' : order.indexOf y = i := by
      rw [← hy, List.getD_eq_getElem _ _ hi]
      exact List.indexOf_getElem hnodup i hi
    exact ⟨hxmem, hymem, by omega⟩
  · rintro ⟨hx, hy, hlt⟩
    have hxlt := List.indexOf_lt_length.mpr hx
    have hylt := List.indexOf_lt_length.mpr hy
    refine ⟨order.indexOf y, order.indexOf x, hlt, hxlt, ?_, ?_⟩
    · rw [List.getD_eq_getElem _ _ hxlt]
      exact List.getElem_indexOf hxlt
    · rw [List.getD_eq_getElem _ _ hylt]
      exact List.getElem_indexOf hylt

/-- The pairs recorded by `Specific::to_partial`, in closed form. -/
theorem specificManual_pairs (s : Specific) :
    s.toPartialManual.pairs
      = ((List.range s.elements).filter (fun i => !(i == s.value))).map
          (fun i => (i, s.value)) := by
  unfold Specific.toPartialManual
  rw [pairs_foldl_specific]
  simp [PartialOrderManual.new]

/-- Membership in the specific pair set. -/
theorem mem_specificPairs (s : Specific) (x y : Nat) :
    ((x, y) ∈ s.toPartialManual.pairs) ↔
      (x < s.elements ∧ x ≠ s.value ∧ y = s.value) := by
  rw [specificManual_pairs]
  simp only [List.mem_map, List.mem_filter, List.mem_range, Bool.not_eq_eq_eq_not,
    Bool.not_true, beq_eq_false_iff_ne, ne_eq, Prod.mk.injEq]
  constructor
  · rintro ⟨i, ⟨hi, hne⟩, rfl, rfl⟩
    exact ⟨hi, hne, rfl⟩
  · rintro ⟨hx, hne, rfl⟩
    exact ⟨x, ⟨hx, hne⟩, rfl, rfl⟩

/-- The pair set built by `Specific::to_partial` satisfies the
`finish_unchecked` precondition. -/
theorem specific_consistent (s : Specific) : manualConsistent s.toPartialManual := by
  constructor
  · rintro ⟨x, y⟩ hp
    obtain ⟨hx, hne, rfl⟩ := (mem_specificPairs s x y).mp hp
    dsimp only
    refine ⟨hne, fun hrev => ?_⟩
    obtain ⟨_, hne', _⟩ := (mem_specificPairs s _ _).mp hrev
    exact hne' rfl
  · intro a b c hab hbc
    obtain ⟨_, _, rfl⟩ := (mem_specificPairs s a b).mp hab
    obtain ⟨_, hne', _⟩ := (mem_specificPairs s _ c).mp hbc
    exact absurd rfl hne'

/-- The relation built by `Specific::to_partial` ranks `x` strictly below
`y` iff `y` is the winner and `x` a different in-range element. -/
theorem specific_lt_iff (s : Specific) (x y : Nat) :
    s.toPartial.ltB x y = true ↔ (x < s.elements ∧ x ≠ s.value ∧ y = s.value) := by
  rw [ltB_iff_mem]
  exact mem_specificPairs s x y

/-- **C9.** At every internal `finish_unchecked` call site (`Tied`,
`ChainI`, and `Specific` conversions to a partial order), the pair set
supplied through `set(lesser, greater)` is antisymmetric and transitively
closed — the unchecked builder's precondition — and the finished relation's
strict comparison answers exactly the intended order: strictly-later tie
group for tied orders, strictly-later rank for incomplete chains, and
everything-below-the-winner for specific orders. -/
theorem C9_to_partial_unchecked_precondition :
    (∀ (order : List Nat) (tied : List Bool), tiedRefValid order tied = true →
      manualConsistent (tiedToPartialManual order tied) ∧
      ∀ x y, (tiedToPartial order tied).ltB x y = true ↔
        ∃ k, k < (iterGroups order tied).length ∧ x ∈ (iterGroups order tied).getD k [] ∧
          ∃ l, l < k ∧ y ∈ (iterGroups order tied).getD l []) ∧
    (∀ c : ChainI, uniqueAndBounded c.elements c.order = true →
      manualConsistent c.toPartialManual ∧
      ∀ x y, c.toPartial.ltB x y = true ↔
        (x ∈ c.order ∧ y ∈ c.order ∧ c.order.indexOf y < c.order.indexOf x)) ∧
    (∀ s : Specific, s.value < s.elements →
      manualConsistent s.toPartialManual ∧
      ∀ x y, s.toPartial.ltB x y = true ↔ (x < s.elements ∧ x ≠ s.value ∧ y = s.value)) :=
  ⟨fun order tied h => ⟨tied_consistent order tied h, fun x y => tied_lt_iff order tied x y⟩,
   fun c h => ⟨chain_consistent c h, fun x y => chain_lt_iff c h x y⟩,
   fun s _ => ⟨specific_consistent s, fun x y => specific_lt_iff s x y⟩⟩

/-- **C9 (witness).** The unchecked-path precondition at a two-element tied
order, a two-element complete chain, and a two-element specific order. -/
theorem C9_to_partial_unchecked_precondition_witness :
    manualConsistent (tiedToPartialManual [1, 0] [false]) ∧
    manualConsistent (ChainI.toPartialManual ⟨2, [1, 0]⟩) ∧
    manualConsistent (Specific.toPartialManual ⟨0, 2⟩) :=
  ⟨(C9_to_partial_unchecked_precondition.1 [1, 0] [false] (by decide)).1,
   (C9_to_partial_unchecked_precondition.2.1 ⟨2, [1, 0]⟩ (by decide)).1,
   (C9_to_partial_unchecked_precondition.2.2 ⟨0, 2⟩ (by decide)).1⟩

/-- **C8.** Converting a `TotalDense` to a `TiedDense` preserves
`elements()`, preserves `len()`, keeps every order's index slice identical,
and initialises every tie flag to `false`. -/
theorem C8_total_to_tied_all_false (v : TotalDense) :
    (tiedOfTotal v).elements = v.elements ∧
    (tiedOfTotal v).len = v.len ∧
    (∀ i, (tiedOfTotal v).getOrder i = v.getOrder i) ∧
    (∀ b ∈ (tiedOfTotal v).ties, b = false) := by
  refine ⟨rfl, rfl, fun i => rfl, fun b hb => ?_⟩
  exact List.eq_of_mem_replicate hb

/-- **C8 (witness).** The conversion theorem instantiated at the
one-order collection `TotalDense { orders: [1,0], elements: 2 }`. -/
theorem C8_total_to_tied_all_false_witness :
    (tiedOfTotal ⟨[1, 0], 2⟩).len = TotalDense.len ⟨[1, 0], 2⟩ ∧
    (tiedOfTotal ⟨[1, 0], 2⟩).getOrder 0 = TotalDense.getOrder ⟨[1, 0], 2⟩ 0 ∧
    ∀ b ∈ (tiedOfTotal ⟨[1, 0], 2⟩).ties, b = false :=
  ⟨(C8_total_to_tied_all_false ⟨[1, 0], 2⟩).2.1,
   (C8_total_to_tied_all_false ⟨[1, 0], 2⟩).2.2.1 0,
   (C8_total_to_tied_all_false ⟨[1, 0], 2⟩).2.2.2⟩

end OrdersRepo
